import Mathlib

/-!
Verification of the Proofreader batch tool (src/Proofreader.py) against its
specification. The Python source is shallowly embedded: pure text transforms
become Lean functions on `String` / `List Char`; the opaque external services
(pycorrector's corrector, the HanLP parser, difflib's SequenceMatcher.ratio,
and the file system) become explicit function parameters; fallible calls
return `Except`.
-/

/- ### Python string primitives used by the source -/

/-- Characters on which Python `str.splitlines` breaks a line (besides the
`CR LF` pair, which is handled as a unit): LF, CR, VT, FF, FS, GS, RS, NEL,
LINE SEPARATOR, PARAGRAPH SEPARATOR. -/
def isLineBreakChar (c : Char) : Bool :=
  c = '\n' || c = '\r' || c = '\x0b' || c = '\x0c' ||
  c = '\x1c' || c = '\x1d' || c = '\x1e' || c = '\u0085' ||
  c = '\u2028' || c = '\u2029'

/-- Helper for `splitlines`: walks the character list with the (reversed)
current line as accumulator.  A line is emitted at every break character
(CR LF counting as one break); the final accumulator is emitted only when
non-empty, matching Python (`"a\n".splitlines() == ["a"]`,
`"".splitlines() == []`, `"\n".splitlines() == [""]`). -/
def splitlinesAux : List Char → List Char → List String
  | [], acc => if acc.isEmpty then [] else [String.mk acc.reverse]
  | c :: rest, acc =>
      if isLineBreakChar c then
        String.mk acc.reverse ::
          (match rest with
           | d :: rest2 =>
               if c = '\r' && d = '\n' then splitlinesAux rest2 []
               else splitlinesAux (d :: rest2) []
           | [] => splitlinesAux [] [])
      else splitlinesAux rest (c :: acc)

/-- Python `str.splitlines`, as used by `clean_chapter_content`. -/
def splitlines (s : String) : List String :=
  splitlinesAux s.data []

/-- Python `'\n'.join(lines)`, as used by `clean_chapter_content`. -/
def joinLines : List String → String
  | [] => ""
  | [l] => l
  | l :: ls => l ++ "\n" ++ joinLines ls

/-- Whitespace stripped by Python `str.strip()`: the ASCII whitespace
characters plus the common Unicode whitespace (NEL, NBSP, line/paragraph
separators, ideographic space). -/
def isPySpace (c : Char) : Bool :=
  c = ' ' || c = '\t' || c = '\n' || c = '\r' || c = '\x0b' || c = '\x0c' ||
  c = '\x1c' || c = '\x1d' || c = '\x1e' || c = '\x1f' ||
  c = '\u0085' || c = '\u00a0' || c = '\u2028' || c = '\u2029' || c = '\u3000'

/-- Python `str.strip()`. -/
def pyStrip (s : String) : String :=
  String.mk (((s.data.dropWhile isPySpace).reverse.dropWhile isPySpace).reverse)

/-- Substring occurrence test on character lists (Python `in` on `str`). -/
def occursIn (pat : List Char) : List Char → Bool
  | [] => pat.isEmpty
  | c :: rest => pat.isPrefixOf (c :: rest) || occursIn pat rest

/-- Python `str` containment `pat in s`. -/
def containsSub (s pat : String) : Bool :=
  occursIn pat.data s.data

/- ### Punctuation Normalizer (`convert_punctuation_to_chinese`) -/

/-- The translation table built by
`{ord(a): b for a, b in zip(',.!?:;()[]<>', '，。！？：；（）【】》《')}`.
Note that the source really does pair `<` with `》` and `>` with `《`
(the target string ends `...》《`), the reverse of the open/close
orientation used for the other bracket pairs. -/
def punctTranslate : Char → Char
  | ',' => '，'
  | '.' => '。'
  | '!' => '！'
  | '?' => '？'
  | ':' => '：'
  | ';' => '；'
  | '(' => '（'
  | ')' => '）'
  | '[' => '【'
  | ']' => '】'
  | '<' => '》'
  | '>' => '《'
  | c => c

/-- Result of `text.translate(punct_map)` on the character list of the input. -/
def translateText (s : String) : List Char :=
  s.data.map punctTranslate

/-- CJK unified ideograph range `一-鿿` of the regex. -/
def isCJKIdeograph (c : Char) : Bool :=
  0x4e00 ≤ c.toNat && c.toNat ≤ 0x9fff

/-- The character class `[一-鿿，。！？；：]` of the quote regex's
lookbehind branch. -/
def cjkLookbehindClass (c : Char) : Bool :=
  isCJKIdeograph c || c = '，' || c = '。' || c = '！' || c = '？' ||
  c = '；' || c = '：'

/-- Python regex word character `\w` (Unicode mode), restricted to the
character repertoire this program deals with: ASCII alphanumerics,
underscore, and CJK unified ideographs (all of which Python counts as
word characters; the full-width punctuation appearing here does not). -/
def isWordChar (c : Char) : Bool :=
  c.isAlphanum || c = '_' || isCJKIdeograph c

/-- Whether the regex `(?<=[一-鿿，。！？；：])"|\B"(?=\B)` matches the
character at position `i` of `cs`.  Since every match of that pattern is a
single `"` character and the lookaround assertions inspect the original
text, matching is a per-position test:
either the preceding character is in the lookbehind class, or both the
position before the quote and the position after it are non-word-boundaries,
which (the quote itself being a non-word character) holds exactly when the
preceding character is absent or non-word and the following character is
absent or non-word. -/
def qualAt (cs : List Char) (i : Nat) : Bool :=
  match cs[i]? with
  | some '"' =>
      (match i, cs[i-1]? with
       | 0, _ => false
       | _+1, some p => cjkLookbehindClass p
       | _+1, none => false)
      ||
      ((match i, cs[i-1]? with
        | 0, _ => true
        | _+1, some p => !isWordChar p
        | _+1, none => true)
       &&
       (match cs[i+1]? with
        | some n => !isWordChar n
        | none => true))
  | _ => false

/-- The characters of `cs` paired with the verdict of the quote regex at
each position. -/
def flagged (cs : List Char) : List (Char × Bool) :=
  (List.range cs.length).map (fun i => (cs.getD i ' ', qualAt cs i))

/-- The replacement function `rep`: the `n`-th replaced quote (`n` being the
value of `rep.idx` after its increment) becomes `「` when `n` is odd and `」`
when `n` is even. -/
def repMark (n : Nat) : Char :=
  if n % 2 = 1 then '「' else '」'

/-- Engine of `re.sub(..., rep, text)`: walks the flagged characters,
threading the current value of the counter `rep.idx`; a flagged quote is
replaced by the alternating mark, every other character is kept. -/
def quoteSubGo : List (Char × Bool) → Nat → List Char
  | [], _ => []
  | (c, b) :: rest, idx =>
      if b then repMark (idx + 1) :: quoteSubGo rest (idx + 1)
      else c :: quoteSubGo rest idx

/-- The quote-replacement pass of `convert_punctuation_to_chinese`. -/
def quoteSub (cs : List Char) : List Char :=
  quoteSubGo (flagged cs) 0

/-- The Punctuation Normalizer `convert_punctuation_to_chinese`: the
translate pass followed by the quote-substitution pass.  The counter starts
at 0 on every call: `rep` is created afresh by the nested `def rep`
statement each time the function runs, so `getattr(rep, 'idx', 0)` finds no
attribute and yields the default 0. -/
def convert_punctuation_to_chinese (s : String) : String :=
  String.mk (quoteSub (translateText s))

/-- The list of replacement marks emitted by the quote pass, in document
order, starting from counter value `idx`. -/
def marksOf : List (Char × Bool) → Nat → List Char
  | [], _ => []
  | (_, b) :: rest, idx =>
      if b then repMark (idx + 1) :: marksOf rest (idx + 1)
      else marksOf rest idx

/-- Number of positions of `cs` at which the quote regex matches. -/
def qCount (cs : List Char) : Nat :=
  ((List.range cs.length).filter (fun i => qualAt cs i)).length

/-- Number of positions `j < i` of `cs` at which the quote regex matches. -/
def qCountBefore (cs : List Char) (i : Nat) : Nat :=
  ((List.range i).filter (fun j => qualAt cs j)).length

/-- Successive invocations of the Punctuation Normalizer, as performed once
per file by the batch loop.  Each call executes the nested `def rep`
statement, creating a fresh function object with no `idx` attribute, so no
counter state survives from one element to the next. -/
def convertCalls : List String → List String
  | [] => []
  | t :: ts => convert_punctuation_to_chinese t :: convertCalls ts

/- ### Chapter Boundary Trimmer (`clean_chapter_content`) -/

/-- The similarity threshold `0.8` of the source, as the exact rational 4/5
(the float literal is exactly representable in the comparison's role here:
the code only ever compares `SequenceMatcher.ratio()` results against it). -/
def simThreshold : ℚ := ⟨4, 5, by norm_num, by norm_num⟩

/-- Length of the leading run of lines whose stripped text is similar to the
chapter title: the source's forward loop sets `start = i + 1` while
`sim(l.strip(), chapter_title) > 0.8` and breaks at the first failure, so
`start` ends up being the length of the matching prefix.  `sim` is difflib's
`SequenceMatcher.ratio`, an opaque external function passed in as a
parameter. -/
def simPrefixCount (sim : String → String → ℚ) (title : String) :
    List String → Nat
  | [] => 0
  | l :: ls =>
      if sim (pyStrip l) title > simThreshold then simPrefixCount sim title ls + 1
      else 0

/-- Whether a line matches `re.search(r'（?本章完|本章结束|本章完）', line)`.
Since `（?` makes the parenthesis optional and `本章完）` is subsumed by the
first alternative, the regex matches exactly when the line contains the
substring `本章完` or the substring `本章结束`. -/
def hasEndMarker (l : String) : Bool :=
  containsSub l "本章完" || containsSub l "本章结束"

/-- Length of the leading run of end-marker lines. -/
def markerPrefixCount : List String → Nat
  | [] => 0
  | l :: ls => if hasEndMarker l then markerPrefixCount ls + 1 else 0

/-- Length of the trailing run of end-marker lines: the source's backward
loop sets `end = i` while lines match, breaking at the first non-match
scanning upward from the bottom (never scanning past `start`, which is
why it is applied to `lines.drop start` below). -/
def markerSuffixCount (ls : List String) : Nat :=
  markerPrefixCount ls.reverse

/-- The Chapter Boundary Trimmer `clean_chapter_content`: with no lines the
content is returned as is; otherwise the title-echo prefix and the
end-marker suffix are dropped and the rest is joined with `'\n'`. -/
def clean_chapter_content (sim : String → String → ℚ)
    (content chapterTitle : String) : String :=
  let lines := splitlines content
  if lines.isEmpty then content
  else
    let start := simPrefixCount sim chapterTitle lines
    let stop := lines.length - markerSuffixCount (lines.drop start)
    joinLines ((lines.drop start).take (stop - start))

/- ### Correction Service Adapter (`correct_single_text`) -/

/-- One entry of the `details` list returned by pycorrector's
`Corrector.correct`: the source unpacks each as `(w, r, _, _)`. -/
structure CorrRecord where
  w : String
  r : String
  b : Nat
  e : Nat
deriving DecidableEq, Repr

/-- The opaque external corrector: given a text it either returns a corrected
text with its detail records or raises (modelled as `Except.error`). -/
def CorrectorFun : Type :=
  String → Except String (String × List CorrRecord)

/-- The Correction Service Adapter `correct_single_text`: forwards the
corrector's result, and catches any exception, degrading to the original
text with an empty record list.  Its total return type is the formal
counterpart of "never raises past this boundary". -/
def correct_single_text (text : String) (corrector : CorrectorFun) :
    String × List CorrRecord :=
  match corrector text with
  | Except.ok res => res
  | Except.error _ => (text, [])

/- ### Grammar Heuristic Adapter (`check_grammar_with_hanlp`) -/

/-- One grammar issue dict `{'type': ..., 'context': ..., 'suggestion': ...}`. -/
structure GrammarIssue where
  type : String
  context : String
  suggestion : String
deriving DecidableEq, Repr

/-- The opaque external dependency parser: called on a sentence, it either
succeeds (its structured output is never inspected by the source, so it is
collapsed to `Unit`) or raises. -/
def ParserFun : Type :=
  String → Except String Unit

/-- Sentence-ending characters of `re.split(r'[。！？!?；;]', text)`. -/
def isSentenceEnd (c : Char) : Bool :=
  c = '。' || c = '！' || c = '？' || c = '!' || c = '?' || c = '；' || c = ';'

/-- Helper for the sentence split: `re.split` on a single-character class
cuts at every separator and keeps empty pieces (including a trailing one). -/
def splitSentencesAux : List Char → List Char → List String
  | [], acc => [String.mk acc.reverse]
  | c :: rest, acc =>
      if isSentenceEnd c then String.mk acc.reverse :: splitSentencesAux rest []
      else splitSentencesAux rest (c :: acc)

/-- The sentence split `re.split(r'[。！？!?；;]', text)`. -/
def splitSentences (text : String) : List String :=
  splitSentencesAux text.data []

/-- Per-sentence body of the grammar loop: sentences outside the length
window `[3, 400]` are skipped; a sentence whose parse raises is skipped; a
parsed sentence yields the placeholder issue exactly when it contains `了`. -/
def grammarIssuesOfSentence (p : ParserFun) (sent : String) :
    List GrammarIssue :=
  if !(3 ≤ sent.length && sent.length ≤ 400) then []
  else
    match p sent with
    | Except.error _ => []
    | Except.ok _ =>
        if sent.data.contains '了' then
          [⟨"可能缺失动词", sent, "检查\"了\"字前面是否缺少动词成分"⟩]
        else []

/-- The Grammar Heuristic Adapter `check_grammar_with_hanlp`: with no parser
handle it returns the empty list; otherwise it splits into sentences, strips
them, drops empty ones, and collects the per-sentence issues in order. -/
def check_grammar_with_hanlp (text : String) (parser : Option ParserFun) :
    List GrammarIssue :=
  match parser with
  | none => []
  | some p =>
      let sentences := ((splitSentences text).map pyStrip).filter
        (fun s => s.length > 0)
      sentences.flatMap (grammarIssuesOfSentence p)

/- ### File Processor (`process_file`) and Batch Driver (`main` loop) -/

/-- Index of the last occurrence of `c`, if any. -/
def lastIdxOf (c : Char) : List Char → Option Nat
  | [] => none
  | x :: xs =>
      match lastIdxOf c xs with
      | some j => some (j + 1)
      | none => if x = c then some 0 else none

/-- Stem of `os.path.splitext`: cut at the last dot, except that dots at the
very start of the name never begin an extension
(`splitext('.bashrc') == ('.bashrc', '')`). -/
def splitextStem (name : String) : String :=
  let cs := name.data
  let lead := (cs.takeWhile (fun c => c = '.')).length
  match lastIdxOf '.' cs with
  | none => name
  | some i => if i < lead then name else String.mk (cs.take i)

/-- The suffix after the last occurrence of `sep` (the whole list when
`sep` does not occur). -/
def afterLastSep (sep : Char) (cs : List Char) : List Char :=
  match lastIdxOf sep cs with
  | none => cs
  | some i => cs.drop (i + 1)

/-- The last path component, `os.path.basename` (POSIX separator). -/
def basename (p : String) : String :=
  String.mk (afterLastSep '/' p.data)

/-- The suffix after the first occurrence of `sep` (empty when `sep` does
not occur; guarded by a containment check at the use site). -/
def dropThroughFirst (sep : Char) : List Char → List Char
  | [] => []
  | c :: rest => if c = sep then rest else dropThroughFirst sep rest

/-- Chapter title derivation `os.path.splitext(name)[0].split('_', 1)[-1]`:
strip the extension, then take everything after the first underscore
(keeping the whole stem when it has none). -/
def chapterTitle (name : String) : String :=
  let stem := (splitextStem name).data
  String.mk (if stem.contains '_' then dropThroughFirst '_' stem else stem)

/-- The environment of opaque collaborators of `process_file`: the file
system's read and write operations (each of which may raise), the corrector
handle, the optional parser handle, and difflib's similarity ratio. -/
structure Env where
  read : String → Except String String
  correct : CorrectorFun
  parser : Option ParserFun
  write : String → String → Except String Unit
  sim : String → String → ℚ

/-- The clean → convert → correct part of the per-file pipeline, returning
the corrected text together with the correction records. -/
def pipelineOf (env : Env) (name text : String) : String × List CorrRecord :=
  let title := chapterTitle name
  let cleaned := clean_chapter_content env.sim text title
  let converted := convert_punctuation_to_chinese cleaned
  correct_single_text converted env.correct

/-- Corrected text written for a file of basename `name` read as `text`. -/
def correctedOf (env : Env) (name text : String) : String :=
  (pipelineOf env name text).1

/-- Correction records reported for a file of basename `name`. -/
def recordsOf (env : Env) (name text : String) : List CorrRecord :=
  (pipelineOf env name text).2

/-- Grammar issues reported for a file of basename `name`. -/
def issuesOf (env : Env) (name text : String) : List GrammarIssue :=
  check_grammar_with_hanlp (correctedOf env name text) env.parser

/-- Numbered correction lines of the report, `"<n>. <w>  →  <r>"`. -/
def renderRecLines : Nat → List CorrRecord → String
  | _, [] => ""
  | i, rec :: rs =>
      toString i ++ ". " ++ rec.w ++ "  →  " ++ rec.r ++ "\n" ++
      renderRecLines (i + 1) rs

/-- Numbered grammar lines of the report,
`"<n>. <type>  建议：<suggestion>  句：<context>"`. -/
def renderIssueLines : Nat → List GrammarIssue → String
  | _, [] => ""
  | i, g :: gs =>
      toString i ++ ". " ++ g.type ++ "  建议：" ++ g.suggestion ++
      "  句：" ++ g.context ++ "\n" ++ renderIssueLines (i + 1) gs

/-- Content of the report file written by `process_file` when it has
something to report. -/
def renderReport (name : String) (errs : List CorrRecord)
    (issues : List GrammarIssue) : String :=
  "文件：" ++ name ++ "\n" ++ String.mk (List.replicate 50 '=') ++ "\n" ++
  (if errs.isEmpty then ""
   else "[拼写] 共 " ++ toString errs.length ++ " 处\n" ++ renderRecLines 1 errs) ++
  (if issues.isEmpty then ""
   else "[语法] 共 " ++ toString issues.length ++ " 处\n" ++
     renderIssueLines 1 issues)

/-- Outcome of one `process_file` call: the file writes that took effect, and
the exception, if any, that escaped the call (the source catches the read
failure itself, but nothing else). -/
structure PFResult where
  writes : List (String × String)
  error : Option String
deriving DecidableEq, Repr

/-- The File Processor `process_file`: a failed read is caught and the call
returns having written nothing; otherwise the pipeline output is written to
`<output_dir>/<basename>`, and when there are correction records or grammar
issues a report is additionally written to
`<output_dir>/校对报告_<basename>`.  A failed write is not caught and
escapes as `error`. -/
def processFile (env : Env) (inputFile outputDir : String) : PFResult :=
  let name := basename inputFile
  match env.read inputFile with
  | Except.error _ => ⟨[], none⟩
  | Except.ok text =>
      let corrected := correctedOf env name text
      let errDetails := recordsOf env name text
      let issues := issuesOf env name text
      let outPath := outputDir ++ "/" ++ name
      match env.write outPath corrected with
      | Except.error e => ⟨[], some e⟩
      | Except.ok _ =>
          if errDetails.isEmpty && issues.isEmpty then
            ⟨[(outPath, corrected)], none⟩
          else
            let repPath := outputDir ++ "/" ++ ("校对报告_" ++ name)
            let repContent := renderReport name errDetails issues
            match env.write repPath repContent with
            | Except.error e => ⟨[(outPath, corrected)], some e⟩
            | Except.ok _ =>
                ⟨[(outPath, corrected), (repPath, repContent)], none⟩

/-- The Batch Driver's per-file loop in `main`: files are processed in
order; the loop body does not catch exceptions, so an exception escaping
`process_file` aborts the remainder of the batch. -/
def runBatch (env : Env) (files : List String) (outputDir : String) :
    List (String × String) × Option String :=
  match files with
  | [] => ([], none)
  | f :: fs =>
      let r := processFile env f outputDir
      match r.error with
      | some e => (r.writes, some e)
      | none =>
          let rest := runBatch env fs outputDir
          (r.writes ++ rest.1, rest.2)

/- ### Shared lemmas -/

/-- Mapping the normalizer over an appended list of texts. -/
lemma convertCalls_append (l1 l2 : List String) :
    convertCalls (l1 ++ l2) = convertCalls l1 ++ convertCalls l2 := by
  induction l1 with
  | nil => rfl
  | cons t ts ih => simp [convertCalls, ih]

/-- A read failure is caught inside `process_file`: nothing is written and
no exception escapes. -/
lemma processFile_read_error (env : Env) (f out e : String)
    (hr : env.read f = Except.error e) :
    processFile env f out = ⟨[], none⟩ := by
  simp only [processFile, hr]

/-- Shape of a `process_file` call whose read succeeds, in an environment
whose writes all succeed. -/
lemma processFile_read_ok (env : Env) (f out text : String)
    (hr : env.read f = Except.ok text)
    (hw : ∀ p c, env.write p c = Except.ok ()) :
    processFile env f out =
      ⟨(out ++ "/" ++ basename f, correctedOf env (basename f) text) ::
        (if (recordsOf env (basename f) text).isEmpty &&
            (issuesOf env (basename f) text).isEmpty then []
         else [(out ++ "/" ++ ("校对报告_" ++ basename f),
                renderReport (basename f) (recordsOf env (basename f) text)
                  (issuesOf env (basename f) text))]),
       none⟩ := by
  simp only [processFile, hr, hw]
  split
  · rfl
  · rfl

/- ### Claim theorems -/

/-- Claim C1 (status: code_bug).  The spec's fixed mapping sends `<` to `《`
and `>` to `》`, consistently with the open-to-open orientation of the other
bracket pairs of the same table; the source's zip pairs them the other way
round, so the normalizer turns `<` into the closing mark `》` and `>` into
the opening mark `《`.  This theorem evaluates the code at the failing
input. -/
theorem c1_angle_bracket_swap_eval :
    punctTranslate '<' = '》' ∧ punctTranslate '>' = '《' ∧
    convert_punctuation_to_chinese "<>" = "》《" := by
  decide

/-- Claim C3 (status: confirmed).  Whatever the corrector does, the adapter
returns a plain pair (it cannot raise); and when the corrector raises, the
adapter returns the original text with an empty record list. -/
theorem c3_correct_degrades (text : String) (corrector : CorrectorFun)
    (e : String) (h : corrector text = Except.error e) :
    correct_single_text text corrector = (text, []) := by
  unfold correct_single_text
  rw [h]

/-- Witness for C3 at a concrete always-raising corrector. -/
theorem c3_correct_degrades_witness :
    (fun _ : String =>
      (Except.error "纠错异常" : Except String (String × List CorrRecord))) "原文"
        = Except.error "纠错异常" ∧
    correct_single_text "原文"
      (fun _ => Except.error "纠错异常") = ("原文", []) :=
  ⟨rfl, c3_correct_degrades "原文" (fun _ => Except.error "纠错异常") "纠错异常" rfl⟩

/-- Claim C7 (status: confirmed).  The alternation counter is fresh on every
invocation: in a run that normalizes a sequence of texts (one call per file,
as the batch loop does), the output for the last text equals the output of a
standalone call on it, whatever texts were processed before.  The counter
lives on the function object created by the nested `def rep` statement, so
it cannot survive between calls. -/
theorem c7_fresh_alternation_counter (pre : List String) (t : String) :
    (convertCalls (pre ++ [t])).getLast? =
      some (convert_punctuation_to_chinese t) := by
  rw [convertCalls_append]
  simp [convertCalls, List.getLast?_concat]

/-- Environment for the C2 counterexample: every file reads fine, but the
write of the corrected output of `f1` raises. -/
def c2CexEnv : Env :=
  ⟨fun _ => Except.ok "中", fun t => Except.ok (t, []), none,
   fun p _ => if p = "out/f1" then Except.error "disk" else Except.ok (),
   fun _ _ => 0⟩

/-- Counterexample to claim C2 as stated: an error arising inside
`process_file` other than an unreadable file does abort the batch.  With
two readable files where the corrected-output write of the first raises,
the batch stops with the exception: nothing is written at all — in
particular nothing for `f2`, even though processing `f2` alone would have
written its corrected output. -/
theorem c2_counterexample :
    (runBatch c2CexEnv ["f1", "f2"] "out").1 = [] ∧
    (runBatch c2CexEnv ["f1", "f2"] "out").2 = some "disk" ∧
    (processFile c2CexEnv "f2" "out").writes = [("out/f2", "中")] := by
  decide

/-- Claim C2 as amended (status: corrected).  The only per-file failure that
`process_file` catches is the read: provided the environment's writes
succeed, no exception ever escapes a `process_file` call, the batch runs to
completion, and every readable file's corrected output is written — read
failures (unreadable files) never abort the batch. -/
theorem c2_batch_continues (env : Env) (files : List String) (out : String)
    (hw : ∀ p c, env.write p c = Except.ok ()) :
    (runBatch env files out).2 = none ∧
    ∀ f ∈ files, ∀ text, env.read f = Except.ok text →
      (out ++ "/" ++ basename f, correctedOf env (basename f) text)
        ∈ (runBatch env files out).1 := by
  induction files with
  | nil =>
      exact ⟨rfl, by intro f hf; cases hf⟩
  | cons g gs ih =>
      have hg : (processFile env g out).error = none := by
        cases hr : env.read g with
        | error e => rw [processFile_read_error env g out e hr]
        | ok text => rw [processFile_read_ok env g out text hr hw]
      constructor
      · show (runBatch env (g :: gs) out).2 = none
        simp only [runBatch, hg]
        exact ih.1
      · intro f hf text hread
        simp only [runBatch, hg]
        rcases List.mem_cons.mp hf with hfg | hfs
        · subst hfg
          rw [processFile_read_ok env f out text hread hw]
          apply List.mem_append_left
          exact List.mem_cons_self ..
        · exact List.mem_append_right _ (ih.2 f hfs text hread)

/-- Environment for the C2 witness: file `f2` is unreadable, the others
read fine, all writes succeed. -/
def c2WitEnv : Env :=
  ⟨fun f => if f = "f2" then Except.error "读取失败" else Except.ok "中",
   fun t => Except.ok (t, []), none, fun _ _ => Except.ok (), fun _ _ => 0⟩

/-- Witness for C2 as amended: three files with the second unreadable — the
batch finishes without an exception and the corrected outputs of files 1
and 3 are both written. -/
theorem c2_batch_continues_witness :
    c2WitEnv.write "out/f1" "中" = Except.ok () ∧
    (runBatch c2WitEnv ["f1", "f2", "f3"] "out").2 = none ∧
    ("out" ++ "/" ++ basename "f1", correctedOf c2WitEnv (basename "f1") "中")
      ∈ (runBatch c2WitEnv ["f1", "f2", "f3"] "out").1 ∧
    ("out" ++ "/" ++ basename "f3", correctedOf c2WitEnv (basename "f3") "中")
      ∈ (runBatch c2WitEnv ["f1", "f2", "f3"] "out").1 :=
  ⟨rfl,
   (c2_batch_continues c2WitEnv ["f1", "f2", "f3"] "out" (fun _ _ => rfl)).1,
   (c2_batch_continues c2WitEnv ["f1", "f2", "f3"] "out" (fun _ _ => rfl)).2
     "f1" (by decide) "中" rfl,
   (c2_batch_continues c2WitEnv ["f1", "f2", "f3"] "out" (fun _ _ => rfl)).2
     "f3" (by decide) "中" rfl⟩

/-- Claim C8 (status: confirmed).  With no parser handle the grammar check
returns the empty list on every text, and a file whose read and writes go
through is still processed to completion: no exception escapes and the
corrected output is written. -/
theorem c8_grammar_unavailable (env : Env) (f out text : String)
    (hp : env.parser = none)
    (hw : ∀ p c, env.write p c = Except.ok ())
    (hr : env.read f = Except.ok text) :
    (∀ t, check_grammar_with_hanlp t env.parser = []) ∧
    (processFile env f out).error = none ∧
    (out ++ "/" ++ basename f, correctedOf env (basename f) text)
      ∈ (processFile env f out).writes := by
  refine ⟨fun t => by rw [hp]; rfl, ?_, ?_⟩
  · rw [processFile_read_ok env f out text hr hw]
  · rw [processFile_read_ok env f out text hr hw]
    exact List.mem_cons_self ..

/-- Environment for the C8 witness: the parser handle is `none`, reads and
writes succeed, the corrector corrects nothing. -/
def c8WitEnv : Env :=
  ⟨fun _ => Except.ok "中", fun t => Except.ok (t, []), none,
   fun _ _ => Except.ok (), fun _ _ => 0⟩

/-- Witness for C8 at a concrete parserless environment. -/
theorem c8_grammar_unavailable_witness :
    c8WitEnv.parser = none ∧
    c8WitEnv.write "out/a.txt" "中" = Except.ok () ∧
    c8WitEnv.read "a.txt" = Except.ok "中" ∧
    ((∀ t, check_grammar_with_hanlp t c8WitEnv.parser = []) ∧
     (processFile c8WitEnv "a.txt" "out").error = none ∧
     ("out" ++ "/" ++ basename "a.txt",
      correctedOf c8WitEnv (basename "a.txt") "中")
       ∈ (processFile c8WitEnv "a.txt" "out").writes) :=
  ⟨rfl, rfl, rfl,
   c8_grammar_unavailable c8WitEnv "a.txt" "out" "中" rfl (fun _ _ => rfl) rfl⟩

/-- Claim C9 (status: confirmed).  In an environment whose writes succeed,
the writes of one `process_file` call are exactly: nothing when the read
raises; otherwise the corrected text at `<out>/<basename>`, followed by the
report at `<out>/校对报告_<basename>` exactly when the correction-record
list or the grammar-issue list is non-empty. -/
theorem c9_writes_shape (env : Env) (f out : String)
    (hw : ∀ p c, env.write p c = Except.ok ()) :
    (∀ e, env.read f = Except.error e → (processFile env f out).writes = []) ∧
    (∀ text, env.read f = Except.ok text →
      (processFile env f out).writes =
        (out ++ "/" ++ basename f, correctedOf env (basename f) text) ::
        (if (recordsOf env (basename f) text).isEmpty &&
            (issuesOf env (basename f) text).isEmpty then []
         else [(out ++ "/" ++ ("校对报告_" ++ basename f),
                renderReport (basename f) (recordsOf env (basename f) text)
                  (issuesOf env (basename f) text))])) := by
  constructor
  · intro e hr
    rw [processFile_read_error env f out e hr]
  · intro text hr
    rw [processFile_read_ok env f out text hr hw]

/-- Environment for the C9 witness: reads succeed with a text the corrector
flags once, so that both the corrected output and the report are written. -/
def c9WitEnv : Env :=
  ⟨fun _ => Except.ok "中",
   fun t => Except.ok (t, [⟨"中", "种", 0, 1⟩]), none,
   fun _ _ => Except.ok (), fun _ _ => 0⟩

/-- Witness for C9 at a concrete environment with one correction record. -/
theorem c9_writes_shape_witness :
    c9WitEnv.write "out/a.txt" "中" = Except.ok () ∧
    c9WitEnv.read "a.txt" = Except.ok "中" ∧
    (processFile c9WitEnv "a.txt" "out").writes =
      ("out" ++ "/" ++ basename "a.txt",
       correctedOf c9WitEnv (basename "a.txt") "中") ::
      (if (recordsOf c9WitEnv (basename "a.txt") "中").isEmpty &&
          (issuesOf c9WitEnv (basename "a.txt") "中").isEmpty then []
       else [("out" ++ "/" ++ ("校对报告_" ++ basename "a.txt"),
              renderReport (basename "a.txt")
                (recordsOf c9WitEnv (basename "a.txt") "中")
                (issuesOf c9WitEnv (basename "a.txt") "中"))]) :=
  ⟨rfl, rfl,
   (c9_writes_shape c9WitEnv "a.txt" "out" (fun _ _ => rfl)).2 "中" rfl⟩


/-- With a non-empty accumulated line the split never returns the empty
list. -/
lemma splitlinesAux_ne_nil_of_acc : ∀ (l acc : List Char), acc ≠ [] → splitlinesAux l acc ≠ [] := by
  intro l
  induction l with
  | nil =>
      intro acc hacc
      rw [splitlinesAux.eq_1, if_neg (by simpa [List.isEmpty_iff] using hacc)]
      simp
  | cons c rest ih =>
      intro acc hacc
      cases rest with
      | nil =>
          rw [splitlinesAux.eq_3]
          split
          · exact List.cons_ne_nil _ _
          · rw [splitlinesAux.eq_1, if_neg (by simp)]
            simp
      | cons d rest2 =>
          rw [splitlinesAux.eq_2]
          split
          · exact List.cons_ne_nil _ _
          · exact ih (c :: acc) (by simp)

/-- The split of a non-empty character list is non-empty. -/
lemma splitlinesAux_cons_ne_nil (c : Char) (rest acc : List Char) :
    splitlinesAux (c :: rest) acc ≠ [] := by
  cases rest with
  | nil =>
      rw [splitlinesAux.eq_3]
      split
      · exact List.cons_ne_nil _ _
      · rw [splitlinesAux.eq_1, if_neg (by simp)]
        simp
  | cons d rest2 =>
      rw [splitlinesAux.eq_2]
      split
      · exact List.cons_ne_nil _ _
      · exact splitlinesAux_ne_nil_of_acc (d :: rest2) (c :: acc) (by simp)

/-- Only the empty string has no lines. -/
lemma splitlines_eq_nil {s : String} (h : splitlines s = []) : s = "" := by
  cases s with
  | mk data =>
      cases data with
      | nil => rfl
      | cons c rest =>
          exact absurd h (splitlinesAux_cons_ne_nil c rest [])

/-- The title-echo prefix never exceeds the line count. -/
lemma simPrefixCount_le (sim : String → String → ℚ) (title : String) :
    ∀ ls : List String, simPrefixCount sim title ls ≤ ls.length := by
  intro ls
  induction ls with
  | nil => simp [simPrefixCount]
  | cons l ls ih =>
      simp only [simPrefixCount, List.length_cons]
      split
      · omega
      · omega

/-- The end-marker prefix never exceeds the line count. -/
lemma markerPrefixCount_le : ∀ ls : List String, markerPrefixCount ls ≤ ls.length := by
  intro ls
  induction ls with
  | nil => simp [markerPrefixCount]
  | cons l ls ih =>
      simp only [markerPrefixCount, List.length_cons]
      split
      · omega
      · omega

/-- The end-marker suffix never exceeds the line count. -/
lemma markerSuffixCount_le (ls : List String) : markerSuffixCount ls ≤ ls.length := by
  have h := markerPrefixCount_le ls.reverse
  simpa [markerSuffixCount] using h

/-- Claim C10 (status: confirmed).  For every similarity function, input and
title, the trimmer's output is the newline-join of a contiguous slice
`lines[start:stop]` of the input's lines, with `0 ≤ start ≤ stop ≤ |lines|`:
surviving lines are kept verbatim, in order, with none removed from the
middle. -/
theorem c10_contiguous_slice (sim : String → String → ℚ)
    (content title : String) :
    ∃ s e : Nat, s ≤ e ∧ e ≤ (splitlines content).length ∧
      clean_chapter_content sim content title =
        joinLines (((splitlines content).drop s).take (e - s)) := by
  by_cases hl : (splitlines content).isEmpty
  · refine ⟨0, 0, le_refl 0, Nat.zero_le _, ?_⟩
    have hnil : splitlines content = [] := List.isEmpty_iff.mp hl
    have hc : content = "" := splitlines_eq_nil hnil
    rw [clean_chapter_content, if_pos hl, hnil, hc]
    rfl
  · set lines := splitlines content with hdef
    set s := simPrefixCount sim title lines with hs
    set e := lines.length - markerSuffixCount (lines.drop s) with he
    have h1 : s ≤ lines.length := simPrefixCount_le sim title lines
    have h2 : markerSuffixCount (lines.drop s) ≤ lines.length - s := by
      have := markerSuffixCount_le (lines.drop s)
      simpa [List.length_drop] using this
    refine ⟨s, e, by omega, by omega, ?_⟩
    rw [clean_chapter_content, if_neg hl]

/-- The forward scan stops at once when the very first line is not
title-similar. -/
lemma simPrefixCount_eq_zero (sim : String → String → ℚ) (title l : String)
    (ls : List String) (h : ¬ (sim (pyStrip l) title > simThreshold)) :
    simPrefixCount sim title (l :: ls) = 0 := by
  simp only [simPrefixCount]
  rw [if_neg h]

/-- The backward scan stops at once when the last line is not an end
marker. -/
lemma markerSuffixCount_eq_zero (ls : List String) (hne : ls ≠ [])
    (h : ∀ l ∈ ls, hasEndMarker l = false) :
    markerSuffixCount ls = 0 := by
  unfold markerSuffixCount
  cases hrev : ls.reverse with
  | nil =>
      exact absurd (by simpa using congrArg List.reverse hrev) hne
  | cons a tl =>
      have ha : a ∈ ls := by
        rw [← List.mem_reverse, hrev]
        exact List.mem_cons_self ..
      simp only [markerPrefixCount]
      rw [h a ha]
      simp

/-- Counterexample to claim C4 as stated: a trailing newline is dropped even
when no line echoes the title and no line is an end marker, so the output is
not equal to the input. -/
theorem c4_counterexample :
    (∀ l ∈ splitlines "你好\n",
      ¬ ((fun _ _ => (0 : ℚ)) (pyStrip l) "t" > simThreshold) ∧
      hasEndMarker l = false) ∧
    clean_chapter_content (fun _ _ => 0) "你好\n" "t" ≠ "你好\n" := by
  constructor
  · decide
  · decide

/-- Claim C4 as amended (status: corrected).  When no line of the input is
title-similar and none is an end marker, the trimmer returns the
newline-join of the input's lines — equal to the input itself exactly when
the input is already in that normalized form (single `\n` separators, no
trailing line terminator); on normalized such inputs the trimmer is the
identity, and applying it twice returns the input both times. -/
theorem c4_trimmed_input_stable (sim : String → String → ℚ)
    (content title : String)
    (h1 : ∀ l ∈ splitlines content, ¬ (sim (pyStrip l) title > simThreshold))
    (h2 : ∀ l ∈ splitlines content, hasEndMarker l = false) :
    clean_chapter_content sim content title = joinLines (splitlines content) ∧
    (content = joinLines (splitlines content) →
      clean_chapter_content sim content title = content ∧
      clean_chapter_content sim (clean_chapter_content sim content title)
        title = content) := by
  have hmain : clean_chapter_content sim content title =
      joinLines (splitlines content) := by
    cases hl : splitlines content with
    | nil =>
        have hc : content = "" := splitlines_eq_nil hl
        rw [clean_chapter_content, hl]
        simp [hc, joinLines]
    | cons l ls =>
        rw [clean_chapter_content, hl]
        have hstart : simPrefixCount sim title (l :: ls) = 0 :=
          simPrefixCount_eq_zero sim title l ls
            (h1 l (by rw [hl]; exact List.mem_cons_self ..))
        have hstop : markerSuffixCount ((l :: ls).drop 0) = 0 := by
          rw [List.drop_zero]
          exact markerSuffixCount_eq_zero (l :: ls) (List.cons_ne_nil l ls)
            (fun x hx => h2 x (by rw [hl]; exact hx))
        simp only [List.isEmpty_cons, hstart, hstop]
        simp [List.take_of_length_le]
  refine ⟨hmain, fun hnorm => ⟨?_, ?_⟩⟩
  · rw [hmain, ← hnorm]
  · rw [hmain, ← hnorm, hmain, ← hnorm]

/-- Witness for C4 as amended at a concrete already-normalized input. -/
theorem c4_trimmed_input_stable_witness :
    splitlines "春眠不觉晓" = ["春眠不觉晓"] ∧
    ¬ ((fun _ _ => (0 : ℚ)) (pyStrip "春眠不觉晓") "题" > simThreshold) ∧
    hasEndMarker "春眠不觉晓" = false ∧
    "春眠不觉晓" = joinLines (splitlines "春眠不觉晓") ∧
    (clean_chapter_content (fun _ _ => 0) "春眠不觉晓" "题" = "春眠不觉晓" ∧
     clean_chapter_content (fun _ _ => 0)
       (clean_chapter_content (fun _ _ => 0) "春眠不觉晓" "题") "题" =
         "春眠不觉晓") :=
  ⟨by decide, by decide, by decide, by decide,
   (c4_trimmed_input_stable (fun _ _ => 0) "春眠不觉晓" "题"
     (by decide) (by decide)).2 (by decide)⟩

/-- Position-wise description of the quote-substitution engine: the output
has the input's character at every unflagged position and the alternating
mark, indexed by the number of flagged positions passed so far, at every
flagged one. -/

lemma quoteSubGo_getElem? : ∀ (fl : List (Char × Bool)) (idx i : Nat),
    (quoteSubGo fl idx)[i]? =
      (fl[i]?).map (fun p =>
        if p.2 then repMark (idx + (fl.take i).countP (fun q => q.2) + 1)
        else p.1) := by
  intro fl
  induction fl with
  | nil => intro idx i; simp [quoteSubGo]
  | cons hd tl ih =>
      intro idx i
      obtain ⟨c, b⟩ := hd
      cases i with
      | zero =>
          cases b <;> simp [quoteSubGo]
      | succ j =>
          cases b with
          | true =>
              show (repMark (idx + 1) :: quoteSubGo tl (idx + 1))[j + 1]? = _
              rw [List.getElem?_cons_succ, ih (idx + 1) j,
                List.getElem?_cons_succ, List.take_succ_cons]
              cases htl : tl[j]? with
              | none => rfl
              | some p =>
                  simp only [Option.map_some', List.countP_cons]
                  by_cases hp : p.2 = true
                  · simp only [hp, if_pos, if_true]
                    congr 2
                    omega
                  · simp [hp]
          | false =>
              show (c :: quoteSubGo tl idx)[j + 1]? = _
              rw [List.getElem?_cons_succ, ih idx j,
                List.getElem?_cons_succ, List.take_succ_cons]
              cases htl : tl[j]? with
              | none => rfl
              | some p =>
                  simp only [Option.map_some', List.countP_cons]
                  by_cases hp : p.2 = true
                  · simp only [hp, if_pos, if_true]
                    simp
                  · simp [hp]

lemma flagged_length (cs : List Char) : (flagged cs).length = cs.length := by
  simp [flagged]

lemma flagged_getElem? (cs : List Char) (i : Nat) :
    (flagged cs)[i]? = (cs[i]?).map (fun c => (c, qualAt cs i)) := by
  unfold flagged
  rw [List.getElem?_map]
  by_cases h : i < cs.length
  · rw [List.getElem?_range h, List.getElem?_eq_getElem h]
    simp [List.getD_eq_getElem?_getD, List.getElem?_eq_getElem h]
  · rw [List.getElem?_eq_none (by simp; omega),
      List.getElem?_eq_none (by simpa using h)]
    rfl

lemma flagged_take_countP (cs : List Char) (i : Nat) (h : i ≤ cs.length) :
    ((flagged cs).take i).countP (fun q => q.2) = qCountBefore cs i := by
  unfold flagged qCountBefore
  rw [← List.map_take, List.take_range, List.countP_map,
    List.countP_eq_length_filter]
  rw [min_eq_left h]
  rfl

/-- Claim C5 as amended (status: corrected).  A straight double-quote of the
translated text is replaced exactly when it is immediately preceded by a CJK
unified ideograph or one of the six marks ，。！？；： (the regex's
lookbehind branch), or when neither of its neighbours is a word character
(the `\B"\B` branch); the replacement is the alternating corner mark
indexed by the number of earlier qualifying quotes, and every other
character is left unchanged.  Adjacency on the right alone does not trigger
a replacement. -/
theorem c5_quote_replacement_rule (text : String) (i : Nat) :
    (convert_punctuation_to_chinese text).data[i]? =
      ((translateText text)[i]?).map (fun c =>
        if qualAt (translateText text) i then
          repMark (qCountBefore (translateText text) i + 1)
        else c) := by
  show (quoteSub (translateText text))[i]? = _
  set tr := translateText text with htr
  unfold quoteSub
  rw [quoteSubGo_getElem?, flagged_getElem?]
  by_cases h : i < tr.length
  · rw [Option.map_map]
    rw [List.getElem?_eq_getElem h]
    simp only [Option.map_some', Function.comp]
    rw [flagged_take_countP tr i (le_of_lt h)]
    simp
  · rw [List.getElem?_eq_none (by omega)]
    rfl

/-- Counterexample to claim C5 as stated: in `"中` the double-quote is
adjacent (on its right) to a CJK character, yet the normalizer leaves it
unchanged — the regex only looks at the character before the quote, so the
output still contains the straight quote. -/
theorem c5_counterexample :
    isCJKIdeograph '中' = true ∧
    convert_punctuation_to_chinese "\"中" = "\"中" := by
  decide

/-- The emitted replacement marks, from counter value `idx`, are exactly the
alternation sequence of length the number of flagged positions. -/
lemma marksOf_eq : ∀ (fl : List (Char × Bool)) (idx : Nat),
    marksOf fl idx =
      (List.range (fl.countP (fun q => q.2))).map
        (fun j => repMark (idx + j + 1)) := by
  intro fl
  induction fl with
  | nil => intro idx; simp [marksOf]
  | cons hd tl ih =>
      intro idx
      obtain ⟨c, b⟩ := hd
      cases b with
      | true =>
          simp only [marksOf, if_true, List.countP_cons, decide_True,
            ih (idx + 1)]
          rw [List.range_succ_eq_map]
          simp only [List.map_cons, List.map_map]
          refine congrArg₂ List.cons rfl ?_
          · apply List.map_congr_left
            intro a _
            simp only [Function.comp]
            congr 1
            omega
      | false =>
          simp only [marksOf, Bool.false_eq_true, if_neg, List.countP_cons,
            decide_False, ih idx]
          simp

/-- Character counts in the substitution output split into marks and
untouched characters. -/
lemma count_quoteSubGo (a : Char) : ∀ (fl : List (Char × Bool)) (idx : Nat),
    (quoteSubGo fl idx).count a =
      (marksOf fl idx).count a +
      ((fl.filter (fun q => !q.2)).map (fun q => q.1)).count a := by
  intro fl
  induction fl with
  | nil => intro idx; simp [quoteSubGo, marksOf]
  | cons hd tl ih =>
      intro idx
      obtain ⟨c, b⟩ := hd
      cases b with
      | true =>
          simp only [quoteSubGo, marksOf, if_true, List.filter_cons,
            Bool.not_true, Bool.false_eq_true, if_false]
          rw [List.count_cons, List.count_cons, ih (idx + 1)]
          omega
      | false =>
          simp only [quoteSubGo, marksOf, Bool.false_eq_true, if_false,
            List.filter_cons, Bool.not_false, if_true, List.map_cons]
          rw [List.count_cons, List.count_cons, ih idx]
          omega

/-- An alternation sequence of even length `2k` holds `k` opening and `k`
closing marks. -/
lemma count_marks_range (k : Nat) :
    ((List.range (2 * k)).map (fun j => repMark (j + 1))).count '「' = k ∧
    ((List.range (2 * k)).map (fun j => repMark (j + 1))).count '」' = k := by
  induction k with
  | zero => simp
  | succ n ih =>
      have h2 : 2 * (n + 1) = 2 * n + 1 + 1 := by omega
      rw [h2, List.range_succ, List.range_succ]
      have hA : repMark (2 * n + 1) = '「' := by
        unfold repMark
        rw [if_pos (by omega)]
      have hB : repMark (2 * n + 1 + 1) = '」' := by
        unfold repMark
        rw [if_neg (by omega)]
      simp only [List.map_append, List.map_cons, List.map_nil,
        List.count_append, ih.1, ih.2, hA, hB]
      constructor
      · simp [List.count_cons]
      · simp [List.count_cons]

/-- The translate table never produces a corner quote mark from another
character. -/
lemma punctTranslate_eq_corner {c a : Char} (ha : a = '「' ∨ a = '」') :
    punctTranslate c = a ↔ c = a := by
  constructor
  · intro h
    unfold punctTranslate at h
    split at h <;> rcases ha with h1 | h1 <;> simp_all
  · intro h
    subst h
    rcases ha with h1 | h1 <;> subst h1 <;> rfl

/-- The translate pass preserves the number of corner quote marks. -/
lemma count_map_punctTranslate (l : List Char) {a : Char}
    (ha : a = '「' ∨ a = '」') :
    (l.map punctTranslate).count a = l.count a := by
  induction l with
  | nil => rfl
  | cons c tl ih =>
      simp only [List.map_cons, List.count_cons, ih]
      congr 1
      by_cases h : c = a
      · rw [if_pos (by exact beq_iff_eq.mpr ((punctTranslate_eq_corner ha).mpr h)),
          if_pos (beq_iff_eq.mpr h)]
      · rw [if_neg (by simp; exact fun hc => h ((punctTranslate_eq_corner ha).mp hc)),
          if_neg (by simpa using h)]

/-- Counting over the untouched characters is bounded by counting over all
characters. -/
lemma count_filtered_le (a : Char) : ∀ (fl : List (Char × Bool)),
    ((fl.filter (fun q => !q.2)).map (fun q => q.1)).count a ≤
      (fl.map (fun q => q.1)).count a := by
  intro fl
  induction fl with
  | nil => simp
  | cons hd tl ih =>
      obtain ⟨c, b⟩ := hd
      cases b with
      | true =>
          simp only [List.filter_cons, Bool.not_true, Bool.false_eq_true,
            if_false, List.map_cons, List.count_cons]
          omega
      | false =>
          simp only [List.filter_cons, Bool.not_false, if_true,
            List.map_cons, List.count_cons]
          omega

/-- Reading every position of a list back off by index reproduces it. -/
lemma map_getD_range (l : List Char) (d : Char) :
    (List.range l.length).map (fun i => l.getD i d) = l := by
  induction l with
  | nil => simp
  | cons c tl ih =>
      simp only [List.length_cons, List.range_succ_eq_map, List.map_cons,
        List.map_map]
      refine congrArg₂ List.cons rfl ?_
      have : ((fun i => (c :: tl).getD i d) ∘ Nat.succ) = fun i => tl.getD i d := by
        funext i
        simp [Function.comp]
      rw [this, ih]

/-- The characters of the flagged list are the original characters. -/
lemma flagged_map_fst (cs : List Char) :
    (flagged cs).map (fun q => q.1) = cs := by
  unfold flagged
  rw [List.map_map]
  exact map_getD_range cs ' '

/-- The number of flagged positions is `qCount`. -/
lemma flagged_countP (cs : List Char) :
    (flagged cs).countP (fun q => q.2) = qCount cs := by
  unfold flagged qCount
  rw [List.countP_map, List.countP_eq_length_filter]
  rfl

/-- Claim C6 as amended (status: corrected).  For an input that contains no
corner quote marks of its own and whose translated text has exactly `2k`
double-quotes satisfying the code's replacement condition, the normalizer's
output contains exactly `k` opening and `k` closing corner marks, and the
replacements in document order are the alternation
「, 」, 「, ... starting with an opening mark. -/
theorem c6_quote_alternation (text : String) (k : Nat)
    (hq : qCount (translateText text) = 2 * k)
    (hL : text.data.count '「' = 0)
    (hR : text.data.count '」' = 0) :
    (convert_punctuation_to_chinese text).data.count '「' = k ∧
    (convert_punctuation_to_chinese text).data.count '」' = k ∧
    marksOf (flagged (translateText text)) 0 =
      (List.range (2 * k)).map (fun j => repMark (j + 1)) := by
  set tr := translateText text with htr
  have hmarks : marksOf (flagged tr) 0 =
      (List.range (2 * k)).map (fun j => repMark (j + 1)) := by
    rw [marksOf_eq, flagged_countP, hq]
    apply List.map_congr_left
    intro a _
    congr 1
    omega
  have hdata : (convert_punctuation_to_chinese text).data = quoteSubGo (flagged tr) 0 := rfl
  have htrL : tr.count '「' = 0 := by
    rw [htr]
    unfold translateText
    rw [count_map_punctTranslate text.data (Or.inl rfl)]
    exact hL
  have htrR : tr.count '」' = 0 := by
    rw [htr]
    unfold translateText
    rw [count_map_punctTranslate text.data (Or.inr rfl)]
    exact hR
  have hfiltL : ((( flagged tr).filter (fun q => !q.2)).map (fun q => q.1)).count '「' = 0 := by
    have h1 := count_filtered_le '「' (flagged tr)
    rw [flagged_map_fst] at h1
    omega
  have hfiltR : (((flagged tr).filter (fun q => !q.2)).map (fun q => q.1)).count '」' = 0 := by
    have h1 := count_filtered_le '」' (flagged tr)
    rw [flagged_map_fst] at h1
    omega
  refine ⟨?_, ?_, hmarks⟩
  · rw [hdata, count_quoteSubGo, hmarks, hfiltL, (count_marks_range k).1]
    omega
  · rw [hdata, count_quoteSubGo, hmarks, hfiltR, (count_marks_range k).2]
    omega


/-- Counterexample to claim C6 as stated: the input `「中"中"` has exactly
2·1 qualifying double-quotes, but since it also carries a corner mark of its
own, the output contains two opening marks, not one. -/
theorem c6_counterexample :
    qCount (translateText "「中\"中\"") = 2 * 1 ∧
    (convert_punctuation_to_chinese "「中\"中\"").data.count '「' ≠ 1 := by
  decide

/-- Witness for C6 as amended at the input `中"中"` (two qualifying quotes,
no pre-existing corner marks). -/
theorem c6_quote_alternation_witness :
    qCount (translateText "中\"中\"") = 2 * 1 ∧
    ("中\"中\"".data.count '「' = 0 ∧ "中\"中\"".data.count '」' = 0) ∧
    ((convert_punctuation_to_chinese "中\"中\"").data.count '「' = 1 ∧
     (convert_punctuation_to_chinese "中\"中\"").data.count '」' = 1 ∧
     marksOf (flagged (translateText "中\"中\"")) 0 =
       (List.range (2 * 1)).map (fun j => repMark (j + 1))) :=
  ⟨by decide, ⟨by decide, by decide⟩,
   c6_quote_alternation "中\"中\"" 1 (by decide) (by decide) (by decide)⟩
